import Mathlib

/-!
Shallow embedding of the gnn-spatial-exploration repository: the R
pre-processing script (standardisation, haversine distance matrix,
k-nearest-neighbour graph) and the Python notebook (train/test masks,
one-hot degree features, GCN forward pass and evaluation).
-/

namespace GnnSpatial

/-! ### Train/test masks (gcn_analysis.ipynb, `make_train_test_masks`) -/

/-- Python `int()` applied to a real `train_size`: truncation toward zero. -/
def truncTowardZero (q : ℚ) : ℤ := if 0 ≤ q then ⌊q⌋ else ⌈q⌉

/-- `int(train_size) > torch.arange(data_size)`: entry `i` is `True` iff
`i < int(train_size)`. -/
def unshuffledTrain (n : ℕ) (trainSize : ℚ) : Fin n → Bool :=
  fun i => decide ((i : ℤ) < truncTowardZero trainSize)

/-- `make_train_test_masks(data_size, train_size)`; `torch.randperm` is the
permutation parameter `σ`.  `train_mask = unshuffled_train[randperm]`,
`test_mask = ~train_mask`. -/
def make_train_test_masks (n : ℕ) (trainSize : ℚ) (σ : Equiv.Perm (Fin n)) :
    (Fin n → Bool) × (Fin n → Bool) :=
  let train_mask := fun i => unshuffledTrain n trainSize (σ i)
  (train_mask, fun i => ! train_mask i)

/-- Number of `true` entries of a boolean vertex mask. -/
def countTrue {n : ℕ} (m : Fin n → Bool) : ℕ :=
  (Finset.univ.filter (fun i => m i = true)).card

lemma countTrue_comp_perm {n : ℕ} (p : Fin n → Bool) (σ : Equiv.Perm (Fin n)) :
    countTrue (fun i => p (σ i)) = countTrue p := by
  unfold countTrue
  have h : (Finset.univ.filter fun i => p (σ i) = true) =
      (Finset.univ.filter fun i => p i = true).map σ.symm.toEmbedding := by
    ext i
    simp only [Finset.mem_filter, Finset.mem_univ, true_and, Finset.mem_map,
      Equiv.coe_toEmbedding]
    constructor
    · intro h
      exact ⟨σ i, h, σ.symm_apply_apply i⟩
    · rintro ⟨j, hj, rfl⟩
      simpa using hj
  rw [h, Finset.card_map]

lemma card_filter_fin_lt (n m : ℕ) :
    (Finset.univ.filter (fun i : Fin n => i.val < m)).card = min m n := by
  rw [Finset.card_filter]
  rw [Fin.sum_univ_eq_sum_range (fun i => if i < m then 1 else 0)]
  rw [← Finset.card_filter]
  have h : (Finset.range n).filter (fun i => i < m) = Finset.range (min m n) := by
    ext i
    simp [Finset.mem_filter, Finset.mem_range, Nat.lt_min, and_comm]
  rw [h, Finset.card_range]

lemma countTrue_unshuffledTrain (n : ℕ) (t : ℚ) :
    countTrue (unshuffledTrain n t) = min (truncTowardZero t).toNat n := by
  unfold countTrue unshuffledTrain
  have h : (Finset.univ.filter fun i : Fin n =>
      decide ((i : ℤ) < truncTowardZero t) = true) =
      (Finset.univ.filter fun i : Fin n => i.val < (truncTowardZero t).toNat) := by
    ext i
    simp only [Finset.mem_filter, Finset.mem_univ, true_and, decide_eq_true_eq]
    exact ⟨fun h => Int.lt_toNat.mpr h, fun h => Int.lt_toNat.mp h⟩
  rw [h, card_filter_fin_lt]

lemma countTrue_train (n : ℕ) (t : ℚ) (σ : Equiv.Perm (Fin n)) :
    countTrue (make_train_test_masks n t σ).1 = min (truncTowardZero t).toNat n := by
  unfold make_train_test_masks
  rw [countTrue_comp_perm (unshuffledTrain n t) σ, countTrue_unshuffledTrain]

lemma countTrue_add_countTrue_not {n : ℕ} (m : Fin n → Bool) :
    countTrue m + countTrue (fun i => ! m i) = n := by
  unfold countTrue
  have h : (Finset.univ.filter fun i => (! m i) = true) =
      (Finset.univ.filter fun i => ¬ (m i = true)) := by
    ext i; simp
  rw [h, Finset.filter_card_add_filter_neg_card_eq_card, Finset.card_univ, Fintype.card_fin]

lemma countTrue_test (n : ℕ) (t : ℚ) (σ : Equiv.Perm (Fin n)) :
    countTrue (make_train_test_masks n t σ).2 =
      n - min (truncTowardZero t).toNat n := by
  have h := countTrue_add_countTrue_not (make_train_test_masks n t σ).1
  have h2 : countTrue (make_train_test_masks n t σ).2 =
      countTrue (fun i => ! (make_train_test_masks n t σ).1 i) := rfl
  have h3 := countTrue_train n t σ
  omega

lemma truncTowardZero_natCast (c : ℕ) : truncTowardZero (c : ℚ) = c := by
  simp [truncTowardZero]

lemma truncTowardZero_ref : truncTowardZero ((2/10 : ℚ) * 456) = 91 := by
  norm_num [truncTowardZero]

lemma masks_disjoint (n : ℕ) (t : ℚ) (σ : Equiv.Perm (Fin n)) (v : Fin n) :
    ¬((make_train_test_masks n t σ).1 v = true ∧
      (make_train_test_masks n t σ).2 v = true) := by
  rintro ⟨h1, h2⟩
  have h : (make_train_test_masks n t σ).2 v = ! (make_train_test_masks n t σ).1 v := rfl
  rw [h, h1] at h2
  simp at h2

lemma masks_cover (n : ℕ) (t : ℚ) (σ : Equiv.Perm (Fin n)) :
    countTrue (make_train_test_masks n t σ).1 +
      countTrue (make_train_test_masks n t σ).2 = n := by
  have h : (make_train_test_masks n t σ).2 =
      fun i => ! (make_train_test_masks n t σ).1 i := rfl
  rw [h]
  exact countTrue_add_countTrue_not _

/-- C10: `make_train_test_masks` truncates a fractional requested train size
toward zero: for every `data_size` `n` and rational `train_size` `t`, the train
mask has exactly `min(n, max(0, int(t)))` entries `True` (the function is total,
so it returns for every such `t`), and the reference call with
`t = 0.2 * 456 = 91.2` marks exactly `91` vertices `True`. -/
theorem make_train_test_masks_truncates (n : ℕ) (t : ℚ) (σ : Equiv.Perm (Fin n))
    (σ₀ : Equiv.Perm (Fin 456)) :
    (countTrue (make_train_test_masks n t σ).1 : ℤ)
        = min (n : ℤ) (max 0 (truncTowardZero t)) ∧
    countTrue (make_train_test_masks 456 ((2/10 : ℚ) * 456) σ₀).1 = 91 := by
  constructor
  · rw [countTrue_train]
    rw [Nat.cast_min]
    rw [Int.toNat_eq_max]
    rw [min_comm, max_comm]
  · rw [countTrue_train, truncTowardZero_ref]
    decide

/-- C4 counterexample: with `n = 2` vertices and configured train count
`c = 5 > n`, the train mask has only `2` entries `True`, not `5`. -/
theorem masks_exact_count_counterexample :
    countTrue (make_train_test_masks 2 ((5 : ℕ) : ℚ) (Equiv.refl (Fin 2))).1 = 2 ∧
    (2 : ℕ) ≠ 5 := by
  constructor
  · rw [countTrue_train, truncTowardZero_natCast]
    norm_num
  · decide

/-- C4 (amended with `c ≤ n`): for every vertex count `n` and configured train
count `c ≤ n`, the train mask has exactly `c` entries `True`, the masks are
disjoint, and the `True` counts add up to `n`; the count formula depends only on
`n` and `c`, never on a feature or target value. -/
theorem masks_partition_exact (n c : ℕ) (σ : Equiv.Perm (Fin n)) (h : c ≤ n) :
    countTrue (make_train_test_masks n (c : ℚ) σ).1 = c ∧
    (∀ v, ¬((make_train_test_masks n (c : ℚ) σ).1 v = true ∧
            (make_train_test_masks n (c : ℚ) σ).2 v = true)) ∧
    countTrue (make_train_test_masks n (c : ℚ) σ).1 +
      countTrue (make_train_test_masks n (c : ℚ) σ).2 = n := by
  refine ⟨?_, masks_disjoint n _ σ, masks_cover n _ σ⟩
  rw [countTrue_train, truncTowardZero_natCast]
  simpa using h

theorem masks_partition_exact_witness :
    (2 : ℕ) ≤ 5 ∧
    (countTrue (make_train_test_masks 5 ((2 : ℕ) : ℚ) (Equiv.refl (Fin 5))).1 = 2 ∧
     (∀ v, ¬((make_train_test_masks 5 ((2 : ℕ) : ℚ) (Equiv.refl (Fin 5))).1 v = true ∧
             (make_train_test_masks 5 ((2 : ℕ) : ℚ) (Equiv.refl (Fin 5))).2 v = true)) ∧
     countTrue (make_train_test_masks 5 ((2 : ℕ) : ℚ) (Equiv.refl (Fin 5))).1 +
       countTrue (make_train_test_masks 5 ((2 : ℕ) : ℚ) (Equiv.refl (Fin 5))).2 = 5) :=
  ⟨by decide, masks_partition_exact 5 2 (Equiv.refl (Fin 5)) (by decide)⟩

/-- C2 counterexample: in the reference run (`n = 456`,
`train_size = 0.2 * 456`), the train mask marks only `91` vertices `True` —
about `0.2 * n`, not the approximately `0.8 * n ≈ 365` the claim states — and
the test mask marks the remaining `365`. -/
theorem reference_split_counterexample :
    countTrue (make_train_test_masks 456 ((2/10 : ℚ) * 456) (Equiv.refl (Fin 456))).1
      = 91 ∧
    countTrue (make_train_test_masks 456 ((2/10 : ℚ) * 456) (Equiv.refl (Fin 456))).2
      = 365 ∧
    ¬(364 ≤
      countTrue (make_train_test_masks 456 ((2/10 : ℚ) * 456) (Equiv.refl (Fin 456))).1) := by
  refine ⟨?_, ?_, ?_⟩
  · rw [countTrue_train, truncTowardZero_ref]; decide
  · rw [countTrue_test, truncTowardZero_ref]; decide
  · rw [countTrue_train, truncTowardZero_ref]; decide

/-- C2 (amended): in the reference run the train/test partition targets a train
fraction of 20% and a test fraction of 80%: of the `n = 456` vertices, the train
mask marks exactly `int(0.2 * 456) = 91` (approximately `0.2 * n`) vertices
`True` and the test mask the remaining `365` (approximately `0.8 * n`). -/
theorem reference_split_is_20_80 (σ : Equiv.Perm (Fin 456)) :
    countTrue (make_train_test_masks 456 ((2/10 : ℚ) * 456) σ).1 = 91 ∧
    countTrue (make_train_test_masks 456 ((2/10 : ℚ) * 456) σ).2 = 365 := by
  constructor
  · rw [countTrue_train, truncTowardZero_ref]; decide
  · rw [countTrue_test, truncTowardZero_ref]; decide

/-- C6 counterexample: with a degenerate train fraction (`train_size = 0`,
hence an empty train partition), `make_train_test_masks` does not fail: it
returns a mask pair — an all-`False` train mask and an all-`True` test mask —
contradicting the claim that this configuration fails with an error rather than
returning masks. -/
theorem degenerate_split_returns_masks :
    countTrue (make_train_test_masks 4 0 (Equiv.refl (Fin 4))).1 = 0 ∧
    countTrue (make_train_test_masks 4 0 (Equiv.refl (Fin 4))).2 = 4 := by
  constructor
  · rw [countTrue_train]; decide
  · rw [countTrue_test]; decide

/-- C6 (amended): an empty train partition is not detected: for every `n`, the
partitioning with `train_size = 0` returns masks (train all `False`, test all
`True`, still a partition of the `n` vertices) instead of failing with an
error; the degenerate configuration surfaces only downstream. -/
theorem degenerate_split_no_error (n : ℕ) (σ : Equiv.Perm (Fin n)) :
    countTrue (make_train_test_masks n 0 σ).1 = 0 ∧
    countTrue (make_train_test_masks n 0 σ).2 = n ∧
    countTrue (make_train_test_masks n 0 σ).1 +
      countTrue (make_train_test_masks n 0 σ).2 = n := by
  refine ⟨?_, ?_, masks_cover n 0 σ⟩
  · rw [countTrue_train]; simp [truncTowardZero]
  · rw [countTrue_test]; simp [truncTowardZero]

/-! ### Distance matrix (R script, `get_geo_distance` / `distances`) -/

/-- Degrees to radians. -/
noncomputable def toRad (x : ℝ) : ℝ := x * Real.pi / 180

/-- Modelled from the spec: `geosphere::distHaversine` (called by
`get_geo_distance`; the geosphere library is external to the repository) —
the haversine great-circle distance in meters between two
(longitude, latitude) pairs given in degrees, on a sphere of radius
6378137 m. -/
noncomputable def distHaversine (lon1 lat1 lon2 lat2 : ℝ) : ℝ :=
  2 * 6378137 * Real.arcsin (Real.sqrt
    (Real.sin ((toRad lat2 - toRad lat1) / 2) ^ 2 +
      Real.cos (toRad lat1) * Real.cos (toRad lat2) *
        Real.sin ((toRad lon2 - toRad lon1) / 2) ^ 2))

/-- `get_geo_distance(long1, lat1, long2, lat2, units='km')`. -/
noncomputable def get_geo_distance (lon1 lat1 lon2 lat2 : ℝ) : ℝ :=
  distHaversine lon1 lat1 lon2 lat2 / 1000

/-- The `distances` matrix built by the double loop: the diagonal is set to
`0`; for `jj < ii`, both `distances[ii, jj]` and `distances[jj, ii]` are set to
`get_geo_distance(LONG[ii], LAT[ii], LONG[jj], LAT[jj])`. -/
noncomputable def distances (n : ℕ) (LAT LONG : Fin n → ℝ) : Fin n → Fin n → ℝ :=
  fun i j =>
    if i = j then 0
    else if j < i then get_geo_distance (LONG i) (LAT i) (LONG j) (LAT j)
    else get_geo_distance (LONG j) (LAT j) (LONG i) (LAT i)

lemma get_geo_distance_nonneg (lon1 lat1 lon2 lat2 : ℝ) :
    0 ≤ get_geo_distance lon1 lat1 lon2 lat2 := by
  unfold get_geo_distance distHaversine
  refine div_nonneg ?_ (by norm_num)
  refine mul_nonneg (by norm_num) ?_
  exact Real.arcsin_nonneg.mpr (Real.sqrt_nonneg _)

lemma get_geo_distance_self (lon lat : ℝ) : get_geo_distance lon lat lon lat = 0 := by
  unfold get_geo_distance distHaversine
  simp

/-- C5 counterexample: for the two-location input in which both locations have
latitude `0` and longitude `0`, the off-diagonal entry `distances[0, 1]` is `0`,
not strictly positive, although the two vertex indices are distinct. -/
theorem distances_positive_counterexample :
    distances 2 (fun _ => 0) (fun _ => 0) 0 1 = 0 ∧ (0 : Fin 2) ≠ 1 := by
  constructor
  · unfold distances
    norm_num [get_geo_distance_self]
  · decide

/-- C5 (amended): for every input location set, the distance matrix satisfies
`distances[i, j] = distances[j, i]` for all pairs and `distances[i, i] = 0` for
every `i`; every off-diagonal entry is nonnegative, but (contrary to the claim)
need not be strictly positive — two locations with identical coordinates are at
haversine distance `0`. -/
theorem distances_symm_diag_nonneg (n : ℕ) (LAT LONG : Fin n → ℝ) (i j : Fin n)
    (h : i ≠ j) :
    distances n LAT LONG i j = distances n LAT LONG j i ∧
    distances n LAT LONG i i = 0 ∧
    0 ≤ distances n LAT LONG i j := by
  refine ⟨?_, ?_, ?_⟩
  · unfold distances
    rcases lt_trichotomy i j with hij | hij | hij
    · rw [if_neg h, if_neg (Ne.symm h), if_neg (not_lt.mpr hij.le), if_pos hij]
    · exact absurd hij h
    · rw [if_neg h, if_neg (Ne.symm h), if_pos hij, if_neg (not_lt.mpr hij.le)]
  · unfold distances
    rw [if_pos rfl]
  · unfold distances
    rw [if_neg h]
    rcases lt_or_ge j i with hij | hij
    · rw [if_pos hij]; exact get_geo_distance_nonneg _ _ _ _
    · rw [if_neg (not_lt.mpr hij)]; exact get_geo_distance_nonneg _ _ _ _

theorem distances_symm_diag_nonneg_witness :
    ((0 : Fin 2) ≠ 1) ∧
    (distances 2 (fun _ => 10) (fun _ => 20) 0 1 = distances 2 (fun _ => 10) (fun _ => 20) 1 0 ∧
     distances 2 (fun _ => 10) (fun _ => 20) 0 0 = 0 ∧
     0 ≤ distances 2 (fun _ => 10) (fun _ => 20) 0 1) :=
  ⟨by decide, distances_symm_diag_nonneg 2 (fun _ => 10) (fun _ => 20) 0 1 (by decide)⟩

/-! ### k-nearest-neighbour graph (R script, `as.undirected(nng(dx=distances, k=5, mutual=FALSE))`) -/

/-- Modelled from the spec: `cccd::nng(dx, k, mutual=FALSE)` (the cccd library
is external to the repository) selects, for each vertex `i`, the `k` vertices
with smallest distance to `i` (excluding `i` itself), ties broken by stable
index order (lower index wins): `i` selects `j` iff `j ≠ i` and fewer than `k`
other vertices `j'` precede `j` in the order "smaller distance first, lower
index wins ties". -/
def selects {n : ℕ} {α : Type} [LinearOrder α] (d : Fin n → Fin n → α) (k : ℕ)
    (i j : Fin n) : Prop :=
  j ≠ i ∧ (Finset.univ.filter fun j' : Fin n => j' ≠ i ∧
    (d i j' < d i j ∨ (d i j' = d i j ∧ j' < j))).card < k

instance {n : ℕ} {α : Type} [LinearOrder α] (d : Fin n → Fin n → α) (k : ℕ)
    (i j : Fin n) : Decidable (selects d k i j) := by
  unfold selects; infer_instance

/-- The directed nearest-neighbour edge set produced by `nng`. -/
def nng {n : ℕ} {α : Type} [LinearOrder α] (d : Fin n → Fin n → α) (k : ℕ) :
    Finset (Fin n × Fin n) :=
  Finset.univ.filter fun p => selects d k p.1 p.2

/-- `igraph::as.undirected` with the default collapse mode: each directed edge
becomes an unordered pair, and duplicates collapse (the result is a set). -/
def as_undirected {n : ℕ} (E : Finset (Fin n × Fin n)) : Finset (Sym2 (Fin n)) :=
  E.image fun p => s(p.1, p.2)

lemma knn_edge_iff {n : ℕ} {α : Type} [LinearOrder α] (d : Fin n → Fin n → α)
    (k : ℕ) (i j : Fin n) :
    s(i, j) ∈ as_undirected (nng d k) ↔ selects d k i j ∨ selects d k j i := by
  unfold as_undirected nng
  constructor
  · intro h
    obtain ⟨p, hp, he⟩ := Finset.mem_image.mp h
    have hsel := (Finset.mem_filter.mp hp).2
    rcases Sym2.eq_iff.mp he with ⟨h1, h2⟩ | ⟨h1, h2⟩
    · left; rw [← h1, ← h2]; exact hsel
    · right; rw [← h1, ← h2]; exact hsel
  · rintro (h | h)
    · exact Finset.mem_image.mpr ⟨(i, j), Finset.mem_filter.mpr ⟨Finset.mem_univ _, h⟩, rfl⟩
    · exact Finset.mem_image.mpr ⟨(j, i), Finset.mem_filter.mpr ⟨Finset.mem_univ _, h⟩,
        Sym2.eq_swap⟩

lemma list_rank_filter {β : Type} [LinearOrder β] :
    ∀ (l : List β), l.Sorted (· < ·) → ∀ k : ℕ,
    (l.filter fun x => decide (l.countP (fun y => decide (y < x)) < k)).length
      = min k l.length := by
  intro l
  induction l with
  | nil => intro _ k; simp
  | cons a tl ih =>
    intro hs k
    rw [List.sorted_cons] at hs
    obtain ⟨ha, htl⟩ := hs
    have hrank_a : (a :: tl).countP (fun y => decide (y < a)) = 0 := by
      rw [List.countP_eq_zero]
      intro y hy
      simp only [decide_eq_true_eq]
      rcases List.mem_cons.mp hy with rfl | hmem
      · exact lt_irrefl y
      · exact not_lt.mpr (ha y hmem).le
    have hrank_tl : ∀ x ∈ tl, (a :: tl).countP (fun y => decide (y < x))
        = tl.countP (fun y => decide (y < x)) + 1 := by
      intro x hx
      rw [List.countP_cons]
      simp [ha x hx]
    cases k with
    | zero => simp
    | succ k' =>
      rw [List.filter_cons]
      have hpa : decide ((a :: tl).countP (fun y => decide (y < a)) < k' + 1) = true := by
        simp [hrank_a]
      rw [if_pos hpa]
      have hcongr : (tl.filter fun x =>
          decide ((a :: tl).countP (fun y => decide (y < x)) < k' + 1)) =
          (tl.filter fun x => decide (tl.countP (fun y => decide (y < x)) < k')) := by
        apply List.filter_congr
        intro x hx
        rw [hrank_tl x hx]
        simp [Nat.succ_lt_succ_iff]
      rw [List.length_cons, hcongr, ih htl k']
      rw [List.length_cons, Nat.succ_min_succ]

lemma finset_card_filter_eq_countP {β : Type} [LinearOrder β] (t : Finset β)
    (p : β → Prop) [DecidablePred p] :
    (t.filter p).card = (t.sort (· ≤ ·)).countP (fun x => decide (p x)) := by
  have h1 : (t.filter p).card = Multiset.countP p t.val := by
    rw [Multiset.countP_eq_card_filter]
    rfl
  rw [h1, ← Finset.sort_eq (· ≤ ·) t, Multiset.coe_countP]

lemma card_filter_rank_lt {β : Type} [LinearOrder β] (t : Finset β) (k : ℕ) :
    (t.filter fun x => (t.filter fun y => y < x).card < k).card = min k t.card := by
  have hinner : ∀ x, (t.filter fun y => y < x).card
      = (t.sort (· ≤ ·)).countP (fun y => decide (y < x)) :=
    fun x => finset_card_filter_eq_countP t (fun y => y < x)
  have houter : (t.filter fun x => (t.filter fun y => y < x).card < k).card
      = (t.sort (· ≤ ·)).countP (fun x =>
          decide ((t.sort (· ≤ ·)).countP (fun y => decide (y < x)) < k)) := by
    rw [finset_card_filter_eq_countP t (fun x => (t.filter fun y => y < x).card < k)]
    apply List.countP_congr
    intro x _
    simp only [decide_eq_true_eq]
    rw [hinner x]
  rw [houter, List.countP_eq_length_filter,
    list_rank_filter _ (Finset.sort_sorted_lt t) k, Finset.length_sort]

lemma selects_card {n : ℕ} {α : Type} [LinearOrder α] (d : Fin n → Fin n → α)
    (k : ℕ) (i : Fin n) :
    (Finset.univ.filter fun j => selects d k i j).card = min k (n - 1) := by
  classical
  set key : Fin n → Lex (α × Fin n) := fun j' => toLex (d i j', j') with hkey
  have hkeyinj : Function.Injective key := by
    intro a b h
    have h2 := congrArg (fun x => (ofLex x).2) h
    simpa [hkey] using h2
  set t : Finset (Lex (α × Fin n)) := (Finset.univ.erase i).image key with ht
  have hrank : ∀ j : Fin n,
      (Finset.univ.filter fun j' : Fin n => j' ≠ i ∧
        (d i j' < d i j ∨ (d i j' = d i j ∧ j' < j))).card
      = (t.filter fun y => y < key j).card := by
    intro j
    have hset : (Finset.univ.filter fun j' : Fin n => j' ≠ i ∧
        (d i j' < d i j ∨ (d i j' = d i j ∧ j' < j)))
        = (Finset.univ.erase i).filter (fun j' => key j' < key j) := by
      ext j'
      simp only [Finset.mem_filter, Finset.mem_univ, true_and, Finset.mem_erase, hkey]
      rw [Prod.Lex.lt_iff]
      tauto
    rw [hset, ht, Finset.filter_image]
    rw [Finset.card_image_of_injective _ hkeyinj]
  have houter : (Finset.univ.filter fun j => selects d k i j)
      = (Finset.univ.erase i).filter (fun j => (t.filter fun y => y < key j).card < k) := by
    ext j
    simp only [Finset.mem_filter, Finset.mem_univ, true_and, Finset.mem_erase]
    unfold selects
    rw [hrank j]
    tauto
  rw [houter]
  have himg : ((Finset.univ.erase i).filter
      (fun j => (t.filter fun y => y < key j).card < k)).card
      = (t.filter fun y => (t.filter fun z => z < y).card < k).card := by
    rw [ht, Finset.filter_image, Finset.card_image_of_injective _ hkeyinj]
  rw [himg, card_filter_rank_lt]
  congr 1
  rw [ht, Finset.card_image_of_injective _ hkeyinj,
    Finset.card_erase_of_mem (Finset.mem_univ i), Finset.card_univ, Fintype.card_fin]

/-- C3: edge construction.  For each vertex `i`, the set of vertices it selects
is exactly the `min k (n-1)` nearest by distance, ties broken by lower index
(so with `k = 5` and more than `5` other vertices, exactly `5` are selected);
and the undirected, duplicate-collapsed edge set obtained by symmetrising the
directed `nng` edges contains `{i, j}` if and only if `i` selected `j` or `j`
selected `i` (symmetric closure / union, not mutual intersection). -/
theorem knn_graph_characterisation {n : ℕ} {α : Type} [LinearOrder α]
    (d : Fin n → Fin n → α) (k : ℕ) (i j : Fin n) :
    (s(i, j) ∈ as_undirected (nng d k) ↔ selects d k i j ∨ selects d k j i) ∧
    (Finset.univ.filter fun j' => selects d k i j').card = min k (n - 1) :=
  ⟨knn_edge_iff d k i j, selects_card d k i⟩

/-! ### One-hot degree features (gcn_analysis.ipynb, `OneHotDegree`) -/

/-- `torch_geometric.utils.degree(g.edge_index[0])`: the degree of vertex `v`
is the number of edge-index columns whose source entry is `v` (the undirected
graph stores both orientations). -/
def degreeOf (E : List (ℕ × ℕ)) (v : ℕ) : ℕ :=
  (E.filter fun e => decide (e.1 = v)).length

/-- `max_deg = torch.max(degrees)`: the maximum degree over the `n` vertices. -/
def maxDegree (E : List (ℕ × ℕ)) (n : ℕ) : ℕ :=
  ((List.range n).map (degreeOf E)).foldr max 0

/-- A one-hot vector of length `len` with the `1` at index `d`. -/
def oneHot (len d : ℕ) : List ℚ :=
  (List.range len).map fun i => if i = d then 1 else 0

/-- `transforms.OneHotDegree(max_deg)` applied to the data: each vertex's
feature row becomes the old row with the one-hot encoding of its degree
appended (`cat=True`, the default). -/
def addDegreeFeature (E : List (ℕ × ℕ)) (n : ℕ) (x : ℕ → List ℚ) : ℕ → List ℚ :=
  fun v => x v ++ oneHot (maxDegree E n + 1) (degreeOf E v)

lemma oneHot_length (len d : ℕ) : (oneHot len d).length = len := by simp [oneHot]

lemma count_range (L d : ℕ) : (List.range L).count d = if d < L then 1 else 0 := by
  induction L with
  | zero => simp
  | succ L ih =>
    rw [List.range_succ, List.count_append, ih]
    simp only [List.count_cons, List.count_nil]
    split_ifs <;> simp_all <;> omega

lemma oneHot_count_one (len d : ℕ) (h : d < len) : (oneHot len d).count 1 = 1 := by
  unfold oneHot
  rw [List.count, List.countP_map]
  simp only [Function.comp_def]
  have hc : ((List.range len).countP fun i => (if i = d then (1:ℚ) else 0) == 1)
      = (List.range len).countP (fun i => i == d) := by
    apply List.countP_congr
    intro i _
    by_cases hi : i = d <;> simp [hi]
  rw [hc]
  have h2 : (List.range len).countP (fun i => i == d) = (List.range len).count d := rfl
  rw [h2, count_range, if_pos h]

lemma oneHot_getD_self (len d : ℕ) (h : d < len) : (oneHot len d).getD d 0 = 1 := by
  unfold oneHot
  rw [List.getD_eq_getElem?_getD, List.getElem?_map, List.getElem?_range h]
  simp

lemma oneHot_getD_other (len d i : ℕ) (h : i ≠ d) : (oneHot len d).getD i 0 = 0 := by
  unfold oneHot
  by_cases hi : i < len
  · rw [List.getD_eq_getElem?_getD, List.getElem?_map, List.getElem?_range hi]
    simp [h]
  · rw [List.getD_eq_getElem?_getD, List.getElem?_map]
    rw [List.getElem?_eq_none (by simpa [List.length_range] using not_lt.mp hi)]
    rfl

lemma le_foldr_max (l : List ℕ) (a : ℕ) (h : a ∈ l) : a ≤ l.foldr max 0 := by
  induction l with
  | nil => cases h
  | cons b tl ih =>
    rcases List.mem_cons.mp h with rfl | hmem
    · exact le_max_left _ _
    · exact le_trans (ih hmem) (le_max_right _ _)

lemma degreeOf_le_maxDegree (E : List (ℕ × ℕ)) (n v : ℕ) (h : v < n) :
    degreeOf E v ≤ maxDegree E n := by
  apply le_foldr_max
  exact List.mem_map.mpr ⟨v, List.mem_range.mpr h, rfl⟩

/-- C9: for every vertex `v` of the graph, the one-hot degree encoding appended
to its feature row has exactly one entry equal to `1` — located at the index
equal to `v`'s degree — and all other entries `0`; its length is
`maxDegree + 1`, the same for every vertex; and `v`'s final feature row is its
previous feature row (the scaled altitude) with this one-hot vector appended. -/
theorem one_hot_degree_encoding (E : List (ℕ × ℕ)) (n : ℕ) (x : ℕ → List ℚ)
    (v : ℕ) (h : v < n) :
    addDegreeFeature E n x v = x v ++ oneHot (maxDegree E n + 1) (degreeOf E v) ∧
    (oneHot (maxDegree E n + 1) (degreeOf E v)).length = maxDegree E n + 1 ∧
    (oneHot (maxDegree E n + 1) (degreeOf E v)).count 1 = 1 ∧
    (oneHot (maxDegree E n + 1) (degreeOf E v)).getD (degreeOf E v) 0 = 1 ∧
    (∀ i, i ≠ degreeOf E v →
      (oneHot (maxDegree E n + 1) (degreeOf E v)).getD i 0 = 0) := by
  refine ⟨rfl, oneHot_length _ _, ?_, ?_, fun i hi => oneHot_getD_other _ _ _ hi⟩
  · exact oneHot_count_one _ _ (Nat.lt_succ_of_le (degreeOf_le_maxDegree E n v h))
  · exact oneHot_getD_self _ _ (Nat.lt_succ_of_le (degreeOf_le_maxDegree E n v h))

theorem one_hot_degree_encoding_witness :
    (0 : ℕ) < 2 ∧
    (addDegreeFeature [(0, 1), (1, 0)] 2 (fun _ => [(5 : ℚ)]) 0
        = [(5 : ℚ)] ++ oneHot (maxDegree [(0, 1), (1, 0)] 2 + 1)
            (degreeOf [(0, 1), (1, 0)] 0) ∧
     (oneHot (maxDegree [(0, 1), (1, 0)] 2 + 1) (degreeOf [(0, 1), (1, 0)] 0)).length
        = maxDegree [(0, 1), (1, 0)] 2 + 1 ∧
     (oneHot (maxDegree [(0, 1), (1, 0)] 2 + 1) (degreeOf [(0, 1), (1, 0)] 0)).count 1
        = 1 ∧
     (oneHot (maxDegree [(0, 1), (1, 0)] 2 + 1)
        (degreeOf [(0, 1), (1, 0)] 0)).getD (degreeOf [(0, 1), (1, 0)] 0) 0 = 1 ∧
     (∀ i, i ≠ degreeOf [(0, 1), (1, 0)] 0 →
       (oneHot (maxDegree [(0, 1), (1, 0)] 2 + 1)
          (degreeOf [(0, 1), (1, 0)] 0)).getD i 0 = 0)) :=
  ⟨by decide, one_hot_degree_encoding [(0, 1), (1, 0)] 2 (fun _ => [(5 : ℚ)]) 0 (by decide)⟩

/-! ### Altitude standardisation (R script, `p$scaled.alt <- scale(p$ALT)`) -/

/-- Arithmetic mean of a list of reals. -/
noncomputable def listMean (xs : List ℝ) : ℝ := xs.sum / xs.length

/-- Sample variance with the `n - 1` denominator used by R's `scale`. -/
noncomputable def sampleVar (xs : List ℝ) : ℝ :=
  ((xs.map fun x => (x - listMean xs) ^ 2).sum) / ((xs.length : ℝ) - 1)

/-- Sample standard deviation. -/
noncomputable def sampleSD (xs : List ℝ) : ℝ := Real.sqrt (sampleVar xs)

/-- `scale(p$ALT)`: centre by the mean, divide by the sample standard
deviation. -/
noncomputable def scaleList (xs : List ℝ) : List ℝ :=
  xs.map fun x => (x - listMean xs) / sampleSD xs

lemma sum_map_sub_const (xs : List ℝ) (c : ℝ) :
    (xs.map fun x => x - c).sum = xs.sum - xs.length * c := by
  induction xs with
  | nil => simp
  | cons a tl ih =>
    simp only [List.map_cons, List.sum_cons, ih, List.length_cons]
    push_cast
    ring

lemma sum_map_centered (xs : List ℝ) (h : xs ≠ []) :
    (xs.map fun x => x - listMean xs).sum = 0 := by
  rw [sum_map_sub_const, listMean]
  have hn : (xs.length : ℝ) ≠ 0 := by
    simpa using List.length_pos.mpr h |>.ne'
  field_simp

lemma sampleVar_nonneg (xs : List ℝ) (h2 : 2 ≤ xs.length) : 0 ≤ sampleVar xs := by
  unfold sampleVar
  apply div_nonneg
  · apply List.sum_nonneg
    intro x hx
    obtain ⟨y, _, rfl⟩ := List.mem_map.mp hx
    positivity
  · have : (2 : ℝ) ≤ (xs.length : ℝ) := by exact_mod_cast h2
    linarith

/-- C8: over the full vertex set, the scaled altitude has mean exactly `0` and
standard deviation exactly `1` (the floating-point computation realises this up
to rounding), where the scaled feature is the raw altitude minus the mean of
the altitudes, divided by their (sample) standard deviation; this needs at
least two data points and a nonzero variance, the degenerate zero-variance
input being undefined. -/
theorem scale_mean_zero_sd_one (xs : List ℝ) (h2 : 2 ≤ xs.length)
    (hvar : sampleVar xs ≠ 0) :
    listMean (scaleList xs) = 0 ∧ sampleSD (scaleList xs) = 1 := by
  have hne : xs ≠ [] := by
    intro h; rw [h] at h2; simp at h2
  have hvar_pos : 0 < sampleVar xs := lt_of_le_of_ne (sampleVar_nonneg xs h2) (Ne.symm hvar)
  have hsd_pos : 0 < sampleSD xs := Real.sqrt_pos.mpr hvar_pos
  have hsd_ne : sampleSD xs ≠ 0 := hsd_pos.ne'
  have hsd_sq : sampleSD xs ^ 2 = sampleVar xs := Real.sq_sqrt hvar_pos.le
  have hlen : (scaleList xs).length = xs.length := by simp [scaleList]
  have hn1 : (xs.length : ℝ) - 1 ≠ 0 := by
    have : (2 : ℝ) ≤ (xs.length : ℝ) := by exact_mod_cast h2
    linarith
  have hsum : (scaleList xs).sum = 0 := by
    unfold scaleList
    have hdiv : (xs.map fun x => (x - listMean xs) / sampleSD xs)
        = xs.map fun x => (x - listMean xs) * (sampleSD xs)⁻¹ := by
      simp [div_eq_mul_inv]
    rw [hdiv, List.sum_map_mul_right, sum_map_centered xs hne, zero_mul]
  have hmean : listMean (scaleList xs) = 0 := by
    rw [listMean, hsum, zero_div]
  refine ⟨hmean, ?_⟩
  have hvar_scaled : sampleVar (scaleList xs) = 1 := by
    unfold sampleVar
    rw [hmean, hlen]
    have hmm : ((scaleList xs).map fun y => (y - 0) ^ 2)
        = xs.map fun x => (x - listMean xs) ^ 2 * (sampleVar xs)⁻¹ := by
      unfold scaleList
      rw [List.map_map]
      apply List.map_congr_left
      intro x _
      simp only [Function.comp_apply, sub_zero, div_pow]
      rw [div_eq_mul_inv, hsd_sq]
    rw [hmm, List.sum_map_mul_right]
    have hsumsq : ((xs.map fun x => (x - listMean xs) ^ 2).sum)
        = sampleVar xs * ((xs.length : ℝ) - 1) := by
      unfold sampleVar
      field_simp
    rw [hsumsq]
    field_simp
  unfold sampleSD
  rw [hvar_scaled, Real.sqrt_one]

theorem scale_mean_zero_sd_one_witness :
    (2 ≤ ([(0 : ℝ), 2]).length ∧ sampleVar [(0 : ℝ), 2] ≠ 0) ∧
    (listMean (scaleList [(0 : ℝ), 2]) = 0 ∧ sampleSD (scaleList [(0 : ℝ), 2]) = 1) :=
  ⟨⟨by norm_num, by norm_num [sampleVar, listMean]⟩,
   scale_mean_zero_sd_one [(0 : ℝ), 2] (by norm_num) (by norm_num [sampleVar, listMean])⟩

/-! ### GCN model and evaluation (gcn_analysis.ipynb, `Model` / `test_loss`) -/

/-- Weights and bias of one `GCNConv(inDim, outDim)` layer. -/
structure GCNConvParams (inDim outDim : ℕ) where
  weight : Fin outDim → Fin inDim → ℝ
  bias : Fin outDim → ℝ

/-- Degree of `v` after the self-loop insertion performed inside `GCNConv`
(the input edge list holds both orientations of each undirected edge and no
self-loops). -/
def hatDeg {n : ℕ} (edges : List (Fin n × Fin n)) (v : Fin n) : ℕ :=
  1 + (edges.filter fun e => decide (e.2 = v)).length

/-- The symmetric normalisation coefficient `1 / sqrt(deg j) / sqrt(deg i)`
used by `GCNConv` for the message from `j` to `i`. -/
noncomputable def gcnNorm {n : ℕ} (edges : List (Fin n × Fin n)) (j i : Fin n) : ℝ :=
  1 / (Real.sqrt (hatDeg edges j) * Real.sqrt (hatDeg edges i))

/-- Modelled from the spec: `torch_geometric.nn.GCNConv` (external library) —
a graph convolution aggregating, at each vertex `i`, the linearly transformed
features of `i`'s neighbours and of `i` itself (inserted self-loop), each
message weighted by the symmetric degree normalisation, plus a bias. -/
noncomputable def gcnConv {n inDim outDim : ℕ} (p : GCNConvParams inDim outDim)
    (edges : List (Fin n × Fin n)) (x : Fin n → Fin inDim → ℝ) :
    Fin n → Fin outDim → ℝ :=
  fun i o =>
    p.bias o +
      (((edges ++ (List.finRange n).map fun v => (v, v)).filter
          fun e => decide (e.2 = i)).map
        fun e => gcnNorm edges e.1 i * ∑ c : Fin inDim, p.weight o c * x e.1 c).sum

/-- The notebook's `Model`: `GCNConv(in_dim, 16)` followed by
`GCNConv(16, 1)`. -/
structure ModelParams (inDim : ℕ) where
  conv1 : GCNConvParams inDim 16
  conv2 : GCNConvParams 16 1

/-- `F.relu`. -/
def relu (x : ℝ) : ℝ := max 0 x

/-- `Model.forward`: `conv1` → `relu` → `dropout(p=0.25, training=self.training)`
→ `conv2` → squeeze.  `training` is the module's train/eval flag; `keep` is the
realisation of the Bernoulli keep-mask drawn by the dropout layer (torch scales
kept activations by `1/(1-p)` in training mode and is the identity in eval
mode). -/
noncomputable def forward {n inDim : ℕ} (m : ModelParams inDim) (training : Bool)
    (keep : Fin n → Fin 16 → Bool) (edges : List (Fin n × Fin n))
    (x : Fin n → Fin inDim → ℝ) : Fin n → ℝ :=
  let h1 := gcnConv m.conv1 edges x
  let h2 := fun v c => relu (h1 v c)
  let h3 := fun v c =>
    if training then (if keep v c then h2 v c / (1 - (1/4 : ℝ)) else 0) else h2 v c
  fun v => gcnConv m.conv2 edges h3 v 0

/-- `nn.MSELoss()` applied to the mask-indexed prediction and target tensors:
the mean squared difference over the vertices the mask marks `True`. -/
noncomputable def mseMasked {n : ℕ} (pred y : Fin n → ℝ) (mask : Fin n → Bool) : ℝ :=
  (∑ v ∈ Finset.univ.filter (fun v => mask v = true), (pred v - y v) ^ 2) /
    (countTrue mask : ℝ)

/-- The notebook's reported test metric: the evaluation cell runs
`model.eval(); test_pred = model(g)` but then computes
`test_loss = crit(pred[g.test_mask], g.y[g.test_mask])` from `pred` — the
variable still holding the *training-mode* forward output of the last training
epoch (`test_pred` is never used). -/
noncomputable def notebookTestLoss {n inDim : ℕ} (m : ModelParams inDim)
    (keep : Fin n → Fin 16 → Bool) (edges : List (Fin n × Fin n))
    (x : Fin n → Fin inDim → ℝ) (y : Fin n → ℝ) (test_mask : Fin n → Bool) : ℝ :=
  let pred := forward m true keep edges x
  mseMasked pred y test_mask

/-- A single-vertex instance with all layer weights `1` and biases `0`. -/
def modelOnes : ModelParams 1 :=
  ⟨⟨fun _ _ => 1, fun _ => 0⟩, ⟨fun _ _ => 1, fun _ => 0⟩⟩

/-- A dropout realisation that drops every hidden unit (probability
`0.25^16 > 0`, so it occurs in real runs). -/
def dropAll : Fin 1 → Fin 16 → Bool := fun _ _ => false

lemma self_loops_one :
    ((List.finRange 1).map fun v => (v, v)) = [((0 : Fin 1), (0 : Fin 1))] := by decide

lemma forward_true_val :
    forward modelOnes true dropAll [] (fun _ _ => 1) 0 = 0 := by
  unfold forward gcnConv
  simp [self_loops_one, gcnNorm, hatDeg, modelOnes, dropAll]

lemma forward_false_val :
    forward modelOnes false dropAll [] (fun _ _ => 1) 0 = 16 := by
  unfold forward gcnConv
  simp [self_loops_one, gcnNorm, hatDeg, modelOnes, dropAll, relu, Finset.sum_const]

/-- C1 (code bug): the metric the notebook reports is **not** the
mean-squared error of the no-dropout (eval-mode) predictions.  On a concrete
single-vertex input (feature `1`, target `1`, all weights `1`, biases `0`,
test mask all-`True`) with a dropout realisation that drops every hidden unit
in the final training epoch, the notebook's `test_loss` — computed from the
training-mode `pred` — is `1`, while the mean-squared error of the eval-mode
forward pass (`test_pred`, which the code computes and then never uses) is
`225`; the two differ, so the reported metric comes from the dropout-active
pass. -/
theorem reported_test_loss_not_eval_pass :
    notebookTestLoss modelOnes dropAll [] (fun _ _ => 1) (fun _ => 1) (fun _ => true) = 1 ∧
    mseMasked (forward modelOnes false dropAll [] (fun _ _ => 1)) (fun _ => 1)
      (fun _ => true) = 225 ∧
    notebookTestLoss modelOnes dropAll [] (fun _ _ => 1) (fun _ => 1) (fun _ => true) ≠
      mseMasked (forward modelOnes false dropAll [] (fun _ _ => 1)) (fun _ => 1)
        (fun _ => true) := by
  refine ⟨?_, ?_, ?_⟩
  · unfold notebookTestLoss mseMasked
    simp [forward_true_val, countTrue]
  · unfold mseMasked
    simp [forward_false_val, countTrue]
    norm_num
  · unfold notebookTestLoss mseMasked
    simp [forward_true_val, forward_false_val, countTrue]
    norm_num

/-! ### Seeded randomness (R `set.seed(42)` / notebook `torch.manual_seed(42)`) -/

/-- Modelled from the spec: the seeded pseudorandom generators behind R's
`set.seed`/`sample` and torch's `manual_seed`/`randperm`/parameter
initialisation/dropout draws (their implementations are external to the
repository).  All that the determinism claim uses is that every draw is a
deterministic function of the seed; a linear congruential step stands in for
the generator. -/
def lcgStep (s : ℕ) : ℕ := (1664525 * s + 1013904223) % 4294967296

/-- The `i`-th draw of the generator seeded with `seed`. -/
def prng (seed i : ℕ) : ℕ := lcgStep^[i + 1] seed

/-- A seed-derived permutation of the `n` vertices (standing in for R's
`sample(n)` and torch's `randperm`). -/
def permOfSeed (seed n : ℕ) : Equiv.Perm (Fin n) := (finRotate n) ^ prng seed 0

/-- A seed-derived parameter value in `[0, 1)`. -/
noncomputable def paramDraw (seed i : ℕ) : ℝ := (prng seed i : ℝ) / 4294967296

/-- Seed-derived initial parameters of the reference model
(`in_dim = 13` in the reference run). -/
noncomputable def initModel (seed : ℕ) : ModelParams 13 :=
  ⟨⟨fun o c => paramDraw seed (o.val * 13 + c.val), fun o => paramDraw seed (300 + o.val)⟩,
   ⟨fun _ c => paramDraw seed (400 + c.val), fun o => paramDraw seed (500 + o.val)⟩⟩

/-- One run of the pipeline's randomness consumers, all driven by the single
seed: the deterministic record shuffle (altitudes and targets reordered by a
seed-derived permutation), the train/test partition built by
`make_train_test_masks` with a seed-derived `randperm`, the model parameter
initialisation, and the dropout keep-draws (each unit kept with probability
`3/4`). -/
noncomputable def referenceRun (seed n : ℕ) (alt pan : Fin n → ℝ) :
    (Fin n → ℝ) × (Fin n → ℝ) × ((Fin n → Bool) × (Fin n → Bool)) ×
      ModelParams 13 × (Fin n → Fin 16 → Bool) :=
  (fun i => alt (permOfSeed seed n i),
   fun i => pan (permOfSeed seed n i),
   make_train_test_masks n ((2/10 : ℚ) * n) (permOfSeed (prng seed 1) n),
   initModel (prng seed 2),
   fun v c => decide (prng (prng seed 3) (v.val * 16 + c.val) % 4 ≠ 0))

/-- C7: all randomness (record shuffle, mask permutation, parameter
initialisation, dropout draws) is a deterministic function of the seed, so two
runs with the same seed and the same input data produce identical vertex
orderings, identical train/test partitions, identical parameter draws — and
hence identical values for every metric computed deterministically from these
artifacts (two-run determinism). -/
theorem two_run_determinism (s₁ s₂ n : ℕ) (alt₁ alt₂ pan₁ pan₂ : Fin n → ℝ)
    (hs : s₁ = s₂) (halt : alt₁ = alt₂) (hpan : pan₁ = pan₂) :
    referenceRun s₁ n alt₁ pan₁ = referenceRun s₂ n alt₂ pan₂ ∧
    ∀ metric : ((Fin n → ℝ) × (Fin n → ℝ) × ((Fin n → Bool) × (Fin n → Bool)) ×
        ModelParams 13 × (Fin n → Fin 16 → Bool)) → ℝ,
      metric (referenceRun s₁ n alt₁ pan₁) = metric (referenceRun s₂ n alt₂ pan₂) := by
  subst hs; subst halt; subst hpan
  exact ⟨rfl, fun _ => rfl⟩

theorem two_run_determinism_witness :
    ((42 : ℕ) = 42 ∧ (fun _ : Fin 2 => (0 : ℝ)) = (fun _ : Fin 2 => (0 : ℝ))) ∧
    (referenceRun 42 2 (fun _ => 0) (fun _ => 0)
        = referenceRun 42 2 (fun _ => 0) (fun _ => 0) ∧
     ∀ metric : ((Fin 2 → ℝ) × (Fin 2 → ℝ) × ((Fin 2 → Bool) × (Fin 2 → Bool)) ×
         ModelParams 13 × (Fin 2 → Fin 16 → Bool)) → ℝ,
       metric (referenceRun 42 2 (fun _ => 0) (fun _ => 0))
          = metric (referenceRun 42 2 (fun _ => 0) (fun _ => 0))) :=
  ⟨⟨rfl, rfl⟩,
   two_run_determinism 42 42 2 (fun _ => 0) (fun _ => 0) (fun _ => 0) (fun _ => 0)
     rfl rfl rfl⟩
